import Mathlib

/-!
Verification of the `pbf` protocol-buffers wire-format decoder (src/pbf.hpp).

The decoder is shallowly embedded: the C++ struct `pbf` becomes a Lean
structure over a byte buffer (`List Nat`, one entry per byte) with the
pointer pair `data`/`end` turned into offsets into that buffer.  Machine
integers of width `w` are modelled as `Nat` reduced `% 2 ^ w` at each
assignment.  C++ exceptions become `Except Err`; every operation returns
the final cursor state alongside its result so that the state after a
failure is observable, matching the state of the C++ object after a throw.
Debug assertions (`assert(...)`) are modelled as an explicit failure
`Err.assertFail`, and every memory dereference the source performs is
modelled through a bounds-instrumented read, so that a read at or past
`end` surfaces as the model-level failure `Err.oobRead` (such a read is
undefined behaviour in the source).
-/

/-- Failure outcomes.  The first four model the exception taxonomy of
`pbf.hpp`; `assertFail` models a failing debug `assert`; `oobRead` is the
model-level marker for a memory read at or past `end`. -/
inductive Err where
  | unterminatedVarint
  | varintTooLong
  | unknownFieldType
  | endOfBuffer
  | assertFail
  | oobRead
  deriving DecidableEq

instance {ε α : Type} [DecidableEq ε] [DecidableEq α] : DecidableEq (Except ε α) := fun a b =>
  match a, b with
  | Except.ok x, Except.ok y =>
    if h : x = y then isTrue (h ▸ rfl) else isFalse fun hc => h (Except.ok.inj hc)
  | Except.error e, Except.error f =>
    if h : e = f then isTrue (h ▸ rfl) else isFalse fun hc => h (Except.error.inj hc)
  | Except.ok _, Except.error _ => isFalse fun hc => Except.noConfusion hc
  | Except.error _, Except.ok _ => isFalse fun hc => Except.noConfusion hc

/-- The cursor (C++ `struct pbf`).  `buf` is the underlying byte buffer the
pointers point into; `data` and `end_` are the offsets corresponding to the
`data` and `end` pointers; `value` and `tag` are the `uint32_t` members. -/
structure pbf where
  buf : List Nat
  data : Nat
  end_ : Nat
  value : Nat
  tag : Nat
  deriving DecidableEq

namespace pbf

/-- Models the constructor `pbf(const char *data, size_t length)` applied to
a whole buffer: `data` points at its first byte, `end = data + length`. -/
def start (bs : List Nat) : pbf :=
  { buf := bs, data := 0, end_ := bs.length, value := 0, tag := 0 }

/-- C++ `wire_type()`: `value & 0x7`. -/
def wire_type (s : pbf) : Nat := s.value &&& 0x7

/-- C++ `is_wire_type(type)`. -/
def is_wire_type (s : pbf) (type : Nat) : Bool := wire_type s == type

/-- C++ `operator bool()`: `data < end`. -/
def hasMore (s : pbf) : Bool := s.data < s.end_

/-- C++ `skipBytes(bytes)`: advance `data` by `bytes`, failing with
`end_of_buffer_exception` when `data + bytes > end`. -/
def skipBytes (bytes : Nat) (s : pbf) : Except Err Unit × pbf :=
  if s.data + bytes > s.end_ then (Except.error Err.endOfBuffer, s)
  else (Except.ok (), { s with data := s.data + bytes })

/-- Bounds-instrumented model of reading the `n` bytes at offsets
`[pos, pos + n)` (the `memcpy` in `fixed` and the copy in `string`): the
read succeeds iff it stays below `end_`, otherwise it is flagged as an
out-of-bounds read. -/
def readBytesAt (s : pbf) (pos n : Nat) : Except Err (List Nat) :=
  if pos + n ≤ s.end_ then
    Except.ok ((List.range n).map fun i => s.buf.getD (pos + i) 0)
  else Except.error Err.oobRead

/-- The `for (bitpos = 0; bitpos < 70 && (byte & 0x80); bitpos += 7)` loop
of `varint<T>`, together with the `bitpos == 70 && (byte & 0x80)` check
after it.  `w` is the bit width of the result type `T`; each accumulation
`result |= ((T)byte & 0x7F) << bitpos` is reduced `% 2 ^ w`, the fixed-width
semantics of `T`.  The loop's iteration count is carried by `fuel`, kept in
lock-step with the source's bound via `bitpos = 7 * (10 - fuel)`: the loop
guard `bitpos < 70` is `fuel > 0`, and reaching `fuel = 0` with the
continuation bit still set is the `varint_too_long_exception` case.
Caution: when `bitpos ≥ w` (a `T` narrower than 64 bits decoding an
encoding of more than `⌈w / 7⌉` bytes) the source's shift is undefined
behaviour in C++ (shift count at or above the operand width), and the
`% 2 ^ w` here is only a defined stand-in; no theorem below observes the
accumulated value in that regime — statements about decoded values carry
the hypothesis `7 * (length - 1) < w`, and `varintLoopShiftMasked` models
the mainstream machine resolution of the UB for the refutation. -/
def varintLoop : Nat → Nat → Nat → Nat → Nat → pbf → Except Err Nat × pbf
  | _, 0, byte, result, _, s =>
    if byte &&& 0x80 = 0 then (Except.ok result, s)
    else (Except.error Err.varintTooLong, s)
  | w, fuel + 1, byte, result, bitpos, s =>
    if byte &&& 0x80 = 0 then (Except.ok result, s)
    else if s.end_ ≤ s.data then (Except.error Err.unterminatedVarint, s)
    else
      let b := s.buf.getD s.data 0
      varintLoop w fuel b ((result ||| ((b &&& 0x7F) <<< bitpos)) % 2 ^ w) (bitpos + 7)
        { s with data := s.data + 1 }

/-- C++ `varint<T>()` where `w` is the bit width of `T`: the initial
`assert(is_wire_type(0) || is_wire_type(2))`, then the decode loop started
with the sentinel `byte = 0x80`, `result = 0`, `bitpos = 0`. -/
def varint (w : Nat) (s : pbf) : Except Err Nat × pbf :=
  if wire_type s = 0 ∨ wire_type s = 2 then varintLoop w 10 0x80 0 0 s
  else (Except.error Err.assertFail, s)

/-- The same decode loop under the other resolution of the source's
undefined shift: for `bitpos ≥ w` the C++ expression
`((T)byte & 0x7F) << bitpos` on a `w`-bit unsigned `T` has a shift count at
or above the operand width — undefined behaviour — and every mainstream
x86/x86-64 compiler emits a `shl` that masks the count to `bitpos % w`
(count mod 32 for 32-bit operands, mod 64 for 64-bit ones).  This variant
performs that masked shift; it agrees with `varintLoop` whenever every
shift count stays below `w`. -/
def varintLoopShiftMasked : Nat → Nat → Nat → Nat → Nat → pbf → Except Err Nat × pbf
  | _, 0, byte, result, _, s =>
    if byte &&& 0x80 = 0 then (Except.ok result, s)
    else (Except.error Err.varintTooLong, s)
  | w, fuel + 1, byte, result, bitpos, s =>
    if byte &&& 0x80 = 0 then (Except.ok result, s)
    else if s.end_ ≤ s.data then (Except.error Err.unterminatedVarint, s)
    else
      let b := s.buf.getD s.data 0
      varintLoopShiftMasked w fuel b
        ((result ||| ((b &&& 0x7F) <<< (bitpos % w))) % 2 ^ w) (bitpos + 7)
        { s with data := s.data + 1 }

/-- C++ `varint<T>()` under the count-masked resolution of the undefined
shift (see `varintLoopShiftMasked`). -/
def varintShiftMasked (w : Nat) (s : pbf) : Except Err Nat × pbf :=
  if wire_type s = 0 ∨ wire_type s = 2 then varintLoopShiftMasked w 10 0x80 0 0 s
  else (Except.error Err.assertFail, s)

/-- Arithmetic right shift by one of a `w`-bit two's-complement value held
as a `Nat` below `2 ^ w`: the sign bit is replicated.  This is what `n >> 1`
does on a negative signed `n` (implementation-defined pre-C++20, arithmetic
on all mainstream compilers, mandated arithmetic since C++20). -/
def sar1 (w x : Nat) : Nat :=
  (x >>> 1) ||| (if 2 ^ (w - 1) ≤ x then 2 ^ (w - 1) else 0)

/-- Two's-complement negation of a `w`-bit value held as a `Nat`:
`-x mod 2 ^ w`. -/
def negw (w x : Nat) : Nat := (2 ^ w - x % 2 ^ w) % 2 ^ w

/-- Reinterpret a `w`-bit value held as a `Nat` below `2 ^ w` as a signed
two's-complement integer. -/
def toSigned (w x : Nat) : Int :=
  if x < 2 ^ (w - 1) then (x : Int) else (x : Int) - 2 ^ w

/-- C++ `svarint<T>()` with `T` a signed `w`-bit type: decode a varint into
`T`, then return `(n >> 1) ^ -(T)(n & 1)`, computed with `T`'s signed
two's-complement semantics (`>>` is the arithmetic shift `sar1`, the
negation wraps `% 2 ^ w`), finally read back as a signed integer. -/
def svarint (w : Nat) (s : pbf) : Except Err Int × pbf :=
  match varint w s with
  | (Except.ok n, s') =>
    (Except.ok (toSigned w ((sar1 w n) ^^^ (negw w (n &&& 1)))), s')
  | (Except.error e, s') => (Except.error e, s')

/-- Little-endian value of a byte list (the integer `memcpy` in `fixed`
produces on a little-endian machine, which is the layout the wire format
fixes). -/
def leValue : List Nat → Nat
  | [] => 0
  | b :: bs => (b &&& 0xFF) + 256 * leValue bs

/-- C++ `fixed<T, bytes>()` with `w` the bit width of `T`: the wire-type
assertion, `skipBytes(bytes)`, then `memcpy(&result, data - bytes, bytes)`
modelled as the instrumented read of those `bytes` bytes assembled
little-endian.  For the `float`/`double` instantiations the returned `Nat`
is the raw bit pattern. -/
def fixed (w bytes : Nat) (s : pbf) : Except Err Nat × pbf :=
  if (wire_type s = 5 ∧ bytes = 4) ∨ (wire_type s = 1 ∧ bytes = 8) then
    match skipBytes bytes s with
    | (Except.ok _, s') =>
      match readBytesAt s' (s'.data - bytes) bytes with
      | Except.ok bl => (Except.ok (leValue bl % 2 ^ w), s')
      | Except.error e => (Except.error e, s')
    | (Except.error e, s') => (Except.error e, s')
  else (Except.error Err.assertFail, s)

/-- C++ `float32()`: assert wire type 5, then `fixed<float, 4>`.  The
result is the 32-bit pattern of the IEEE-754 value. -/
def float32 (s : pbf) : Except Err Nat × pbf :=
  if wire_type s = 5 then fixed 32 4 s else (Except.error Err.assertFail, s)

/-- C++ `float64()`: assert wire type 1, then `fixed<double, 8>`.  The
result is the 64-bit pattern of the IEEE-754 value. -/
def float64 (s : pbf) : Except Err Nat × pbf :=
  if wire_type s = 1 then fixed 64 8 s else (Except.error Err.assertFail, s)

/-- C++ `string()`: assert wire type 2, decode the length varint
(`varint()` defaults to `T = uint32_t`), remember `pos = data`, skip the
payload, then copy the `bytes` bytes at `pos` (instrumented read). -/
def string (s : pbf) : Except Err (List Nat) × pbf :=
  if wire_type s = 2 then
    match varint 32 s with
    | (Except.ok bytes, s₁) =>
      let pos := s₁.data
      match skipBytes bytes s₁ with
      | (Except.ok _, s₂) =>
        match readBytesAt s₂ pos bytes with
        | Except.ok bl => (Except.ok bl, s₂)
        | Except.error e => (Except.error e, s₂)
      | (Except.error e, s₂) => (Except.error e, s₂)
    | (Except.error e, s₁) => (Except.error e, s₁)
  else (Except.error Err.assertFail, s)

/-- C++ `boolean()`: `assert(is_wire_type(0))`, then
`assert((*data & 0x80) == 0)` — note this assertion dereferences `data`
BEFORE any bounds check, modelled as an instrumented read that fails with
`oobRead` when `data = end` — then `skipBytes(1)` and `return data[-1] != 0`. -/
def boolean (s : pbf) : Except Err Bool × pbf :=
  if wire_type s = 0 then
    if s.data < s.end_ then
      let b := s.buf.getD s.data 0
      if b &&& 0x80 = 0 then
        match skipBytes 1 s with
        | (Except.ok _, s') => (Except.ok (decide (s'.buf.getD (s'.data - 1) 0 ≠ 0)), s')
        | (Except.error e, s') => (Except.error e, s')
      else (Except.error Err.assertFail, s)
    else (Except.error Err.oobRead, s)
  else (Except.error Err.assertFail, s)

/-- C++ `message()`: assert wire type 2, decode the length varint
(`T = uint32_t`), remember `pos = data`, skip the payload, and return the
sub-cursor `pbf(pos, bytes)` — same buffer, `data = pos`,
`end = pos + bytes`, `value = tag = 0`. -/
def message (s : pbf) : Except Err pbf × pbf :=
  if wire_type s = 2 then
    match varint 32 s with
    | (Except.ok bytes, s₁) =>
      let pos := s₁.data
      match skipBytes bytes s₁ with
      | (Except.ok _, s₂) =>
        (Except.ok { buf := s₂.buf, data := pos, end_ := pos + bytes, value := 0, tag := 0 }, s₂)
      | (Except.error e, s₂) => (Except.error e, s₂)
    | (Except.error e, s₁) => (Except.error e, s₁)
  else (Except.error Err.assertFail, s)

/-- C++ `skipValue(val)`: dispatch on `val & 0x7`; wire type 0 discards a
varint (`T = uint32_t`), 1 skips 8 bytes, 2 skips a varint-length payload,
5 skips 4 bytes, anything else throws `unknown_field_type_exception`. -/
def skipValue (val : Nat) (s : pbf) : Except Err Unit × pbf :=
  match val &&& 0x7 with
  | 0 =>
    (match varint 32 s with
     | (Except.ok _, s') => (Except.ok (), s')
     | (Except.error e, s') => (Except.error e, s'))
  | 1 => skipBytes 8 s
  | 2 =>
    (match varint 32 s with
     | (Except.ok n, s') => skipBytes n s'
     | (Except.error e, s') => (Except.error e, s'))
  | 5 => skipBytes 4 s
  | _ => (Except.error Err.unknownFieldType, s)

/-- C++ `skip()`: `skipValue(value)`. -/
def skip (s : pbf) : Except Err Unit × pbf := skipValue s.value s

/-- C++ `next()`: if `data < end`, decode the field key with `varint()`
(`T = uint32_t`), store it in `value`, set `tag = value >> 3`, and return
`true`; otherwise return `false`. -/
def next (s : pbf) : Except Err Bool × pbf :=
  if s.data < s.end_ then
    match varint 32 s with
    | (Except.ok v, s') => (Except.ok true, { s' with value := v, tag := v >>> 3 })
    | (Except.error e, s') => (Except.error e, s')
  else (Except.ok false, s)

/-- The `while (next()) { if (tag == requested_tag) return true; else skip(); }`
loop of `next(uint32_t)`, with the iteration count carried by `fuel`.  Each
successful `next` consumes at least one byte, so `end_ - data + 1` units of
fuel always suffice (proved below); the `fuel = 0` branch is unreachable
under that bound. -/
def nextTagAux (requested_tag : Nat) : Nat → pbf → Except Err Bool × pbf
  | 0, s => (Except.ok false, s)
  | fuel + 1, s =>
    match next s with
    | (Except.ok true, s₁) =>
      if s₁.tag = requested_tag then (Except.ok true, s₁)
      else
        match skip s₁ with
        | (Except.ok _, s₂) => nextTagAux requested_tag fuel s₂
        | (Except.error e, s₂) => (Except.error e, s₂)
    | (Except.ok false, s₁) => (Except.ok false, s₁)
    | (Except.error e, s₁) => (Except.error e, s₁)

/-- C++ `next(uint32_t requested_tag)`. -/
def nextTag (requested_tag : Nat) (s : pbf) : Except Err Bool × pbf :=
  nextTagAux requested_tag (s.end_ - s.data + 1) s

/-- An operation preserves the cursor bound: starting from `data ≤ end`,
it leaves `end` unchanged and never ends with `data > end`, whether it
returns normally or fails. -/
def PreservesBound {α : Type} (op : pbf → Except Err α × pbf) : Prop :=
  ∀ s : pbf, s.data ≤ s.end_ → (op s).2.end_ = s.end_ ∧ (op s).2.data ≤ s.end_

/-- An operation performs no memory read at or past `end` (no instrumented
read of the model reports out of bounds). -/
def NoOobRead {α : Type} (op : pbf → Except Err α × pbf) : Prop :=
  ∀ s : pbf, s.data ≤ s.end_ → (op s).1 ≠ Except.error Err.oobRead

/-- The operation leaves `buf`, `end_`, `value`, `tag` unchanged, never
moves `data` backwards, and keeps `data ≤ end_` when it held at entry. -/
def Frames {α : Type} (op : pbf → Except Err α × pbf) : Prop :=
  ∀ s : pbf, (op s).2.buf = s.buf ∧ (op s).2.end_ = s.end_ ∧
    (op s).2.value = s.value ∧ (op s).2.tag = s.tag ∧
    s.data ≤ (op s).2.data ∧ (s.data ≤ s.end_ → (op s).2.data ≤ s.end_)

end pbf

/-! Specification-side definitions: the wire format's varint and zigzag
encoders (the decoder's mathematical inverses, used to state round-trip
and truncation properties), and predicates describing byte runs. -/

/-- Little-endian base-128 encoding of `v`: 7 value bits per byte, high bit
set on every byte but the last.  Structural on a fuel of groups; 10 groups
cover every `v < 2 ^ 70`, the largest varint the decoder accepts. -/
def encodeVarintAux : Nat → Nat → List Nat
  | 0, _ => []
  | fuel + 1, v => if v < 0x80 then [v] else (v % 0x80 + 0x80) :: encodeVarintAux fuel (v / 0x80)

/-- Varint encoding of `v` (valid for `v < 2 ^ 70`). -/
def encodeVarint (v : Nat) : List Nat := encodeVarintAux 10 v

/-- Standard zigzag map from a signed integer to the unsigned value whose
varint encoding represents it: `v ↦ 2v` for `v ≥ 0`, `v ↦ -2v - 1` for
`v < 0`. -/
def zigzag (v : Int) : Nat :=
  if 0 ≤ v then 2 * v.toNat else 2 * (-v).toNat - 1

/-- Value denoted by a varint byte run: each byte contributes its low 7
bits, least significant group first. -/
def varintValue : List Nat → Nat
  | [] => 0
  | b :: bs => (b &&& 0x7F) ||| (varintValue bs <<< 7)

/-- The bytes of `bs` appear in `buf` starting at offset `pos`. -/
def bytesAt (buf : List Nat) (pos : Nat) (bs : List Nat) : Prop :=
  ∀ i, i < bs.length → buf.getD (pos + i) 0 = bs.getD i 0

instance (buf : List Nat) (pos : Nat) (bs : List Nat) :
    Decidable (bytesAt buf pos bs) := by
  unfold bytesAt; infer_instance

/-- A byte list that forms one complete varint: nonempty, every byte but
the last carries the continuation bit, the last does not. -/
def varintRun (bs : List Nat) : Prop :=
  bs ≠ [] ∧ (∀ i, i + 1 < bs.length → bs.getD i 0 &&& 0x80 ≠ 0) ∧
    bs.getD (bs.length - 1) 0 &&& 0x80 = 0

/-! Frame and bound lemmas for the varint decode loop. -/

namespace pbf

theorem varintLoop_frame (w fuel byte result bitpos : Nat) (s : pbf) :
    (varintLoop w fuel byte result bitpos s).2.buf = s.buf ∧
    (varintLoop w fuel byte result bitpos s).2.end_ = s.end_ ∧
    (varintLoop w fuel byte result bitpos s).2.value = s.value ∧
    (varintLoop w fuel byte result bitpos s).2.tag = s.tag ∧
    s.data ≤ (varintLoop w fuel byte result bitpos s).2.data ∧
    (s.data ≤ s.end_ → (varintLoop w fuel byte result bitpos s).2.data ≤ s.end_) := by
  induction fuel generalizing byte result bitpos s with
  | zero =>
    simp only [varintLoop]
    split <;> simp
  | succ fuel ih =>
    simp only [varintLoop]
    by_cases hb : byte &&& 0x80 = 0
    · simp [hb]
    · by_cases he : s.end_ ≤ s.data
      · simp [hb, he]
      · simp only [hb, he, if_false, if_neg]
        have h := ih (s.buf.getD s.data 0)
          ((result ||| ((s.buf.getD s.data 0 &&& 0x7F) <<< bitpos)) % 2 ^ w) (bitpos + 7)
          { s with data := s.data + 1 }
        simp only at h
        refine ⟨h.1, h.2.1, h.2.2.1, h.2.2.2.1, ?_, ?_⟩
        · exact le_trans (Nat.le_succ _) h.2.2.2.2.1
        · intro _
          exact h.2.2.2.2.2 (by omega)

theorem varintLoop_no_oob (w fuel byte result bitpos : Nat) (s : pbf) :
    (varintLoop w fuel byte result bitpos s).1 ≠ Except.error Err.oobRead ∧
    (varintLoop w fuel byte result bitpos s).1 ≠ Except.error Err.assertFail ∧
    (varintLoop w fuel byte result bitpos s).1 ≠ Except.error Err.endOfBuffer ∧
    (varintLoop w fuel byte result bitpos s).1 ≠ Except.error Err.unknownFieldType := by
  induction fuel generalizing byte result bitpos s with
  | zero =>
    simp only [varintLoop]
    split <;> simp
  | succ fuel ih =>
    simp only [varintLoop]
    by_cases hb : byte &&& 0x80 = 0
    · simp [hb]
    · by_cases he : s.end_ ≤ s.data
      · simp [hb, he]
      · simp only [hb, he, if_false, if_neg]
        exact ih _ _ _ _

theorem varintLoop_consumes (w fuel byte result bitpos : Nat) (s : pbf) (v : Nat)
    (hbyte : byte &&& 0x80 ≠ 0)
    (hok : (varintLoop w fuel byte result bitpos s).1 = Except.ok v) :
    s.data < (varintLoop w fuel byte result bitpos s).2.data := by
  cases fuel with
  | zero =>
    simp only [varintLoop, if_neg hbyte] at hok
    simp at hok
  | succ fuel =>
    simp only [varintLoop, if_neg hbyte] at hok ⊢
    by_cases he : s.end_ ≤ s.data
    · simp [he] at hok
    · simp only [he, if_false] at hok ⊢
      have h := (varintLoop_frame w fuel (s.buf.getD s.data 0)
        ((result ||| ((s.buf.getD s.data 0 &&& 0x7F) <<< bitpos)) % 2 ^ w) (bitpos + 7)
        { s with data := s.data + 1 }).2.2.2.2.1
      simp only at h
      omega

theorem varint_frame (w : Nat) (s : pbf) :
    (varint w s).2.buf = s.buf ∧ (varint w s).2.end_ = s.end_ ∧
    (varint w s).2.value = s.value ∧ (varint w s).2.tag = s.tag ∧
    s.data ≤ (varint w s).2.data ∧
    (s.data ≤ s.end_ → (varint w s).2.data ≤ s.end_) := by
  unfold varint
  split
  · have h := varintLoop_frame w 10 0x80 0 0 s
    exact ⟨h.1, h.2.1, h.2.2.1, h.2.2.2.1, h.2.2.2.2.1, h.2.2.2.2.2⟩
  · simp

theorem varint_errs (w : Nat) (s : pbf) :
    (varint w s).1 ≠ Except.error Err.oobRead ∧
    (varint w s).1 ≠ Except.error Err.endOfBuffer ∧
    (varint w s).1 ≠ Except.error Err.unknownFieldType := by
  unfold varint
  split
  · have h := varintLoop_no_oob w 10 0x80 0 0 s
    exact ⟨h.1, h.2.2.1, h.2.2.2⟩
  · simp

theorem varint_ok_consumes (w : Nat) (s : pbf) (v : Nat)
    (hok : (varint w s).1 = Except.ok v) :
    s.data < (varint w s).2.data := by
  unfold varint at hok ⊢
  by_cases hwt : wire_type s = 0 ∨ wire_type s = 2
  · rw [if_pos hwt] at hok ⊢
    exact varintLoop_consumes w 10 0x80 0 0 s v (by decide) hok
  · rw [if_neg hwt] at hok
    simp at hok

theorem skipBytes_frame (n : Nat) (s : pbf) :
    (skipBytes n s).2.buf = s.buf ∧ (skipBytes n s).2.end_ = s.end_ ∧
    (skipBytes n s).2.value = s.value ∧ (skipBytes n s).2.tag = s.tag ∧
    s.data ≤ (skipBytes n s).2.data ∧
    (s.data ≤ s.end_ → (skipBytes n s).2.data ≤ s.end_) ∧
    (skipBytes n s).1 ≠ Except.error Err.oobRead := by
  unfold skipBytes
  split
  · simp
  · rename_i h
    simp only [not_lt] at h
    simp
    omega

theorem Frames.preservesBound {α : Type} {op : pbf → Except Err α × pbf}
    (h : Frames op) : PreservesBound op :=
  fun s hs => ⟨(h s).2.1, (h s).2.2.2.2.2 hs⟩

theorem skipBytes_cases (n : Nat) (s : pbf) :
    (skipBytes n s = (Except.ok (), { s with data := s.data + n }) ∧ s.data + n ≤ s.end_) ∨
    (skipBytes n s = (Except.error Err.endOfBuffer, s) ∧ s.end_ < s.data + n) := by
  unfold skipBytes
  split
  · right
    rename_i h
    exact ⟨rfl, h⟩
  · left
    rename_i h
    exact ⟨rfl, by omega⟩

theorem varint_frames (w : Nat) : Frames (varint w) := by
  intro s
  have h := varint_frame w s
  exact ⟨h.1, h.2.1, h.2.2.1, h.2.2.2.1, h.2.2.2.2.1, h.2.2.2.2.2⟩

theorem svarint_frames (w : Nat) : Frames (svarint w) := by
  intro s
  have h := varint_frame w s
  unfold svarint
  rcases hv : varint w s with ⟨r, s'⟩
  rw [hv] at h
  cases r <;> simpa using h

theorem svarint_no_oob (w : Nat) (s : pbf) :
    (svarint w s).1 ≠ Except.error Err.oobRead := by
  have h := varint_errs w s
  unfold svarint
  rcases hv : varint w s with ⟨r, s'⟩
  rw [hv] at h
  cases r <;> simp_all

theorem fixed_frames (w b : Nat) : Frames (fixed w b) := by
  intro s
  unfold fixed
  split
  · rcases skipBytes_cases b s with ⟨heq, hle⟩ | ⟨heq, hlt⟩ <;> rw [heq]
    · simp only
      unfold readBytesAt
      split <;> simp <;> omega
    · simp
  · simp

theorem fixed_no_oob (w b : Nat) (s : pbf) :
    (fixed w b s).1 ≠ Except.error Err.oobRead := by
  unfold fixed
  split
  · rcases skipBytes_cases b s with ⟨heq, hle⟩ | ⟨heq, hlt⟩ <;> rw [heq]
    · simp only
      unfold readBytesAt
      have hc : s.data + b - b + b ≤ s.end_ := by omega
      rw [if_pos hc]
      simp
    · simp
  · simp

theorem float32_frames : Frames float32 := by
  intro s
  unfold float32
  split
  · exact fixed_frames 32 4 s
  · simp

theorem float32_no_oob (s : pbf) :
    (float32 s).1 ≠ Except.error Err.oobRead := by
  unfold float32
  split
  · exact fixed_no_oob 32 4 s
  · simp

theorem float64_frames : Frames float64 := by
  intro s
  unfold float64
  split
  · exact fixed_frames 64 8 s
  · simp

theorem float64_no_oob (s : pbf) :
    (float64 s).1 ≠ Except.error Err.oobRead := by
  unfold float64
  split
  · exact fixed_no_oob 64 8 s
  · simp

theorem string_frames : Frames string := by
  intro s
  unfold string
  split
  · rcases hv : varint 32 s with ⟨r, s₁⟩
    have hf := varint_frame 32 s
    rw [hv] at hf
    obtain ⟨hb, he, hval, htag, hd, hbd⟩ := hf
    cases r with
    | ok n =>
      dsimp only at hb he hval htag hd hbd ⊢
      rcases skipBytes_cases n s₁ with ⟨heq, hle⟩ | ⟨heq, hlt⟩ <;> rw [heq]
      · dsimp only
        split
        · dsimp only
          exact ⟨hb, by omega, hval, htag, by omega, fun _ => by omega⟩
        · dsimp only
          exact ⟨hb, by omega, hval, htag, by omega, fun _ => by omega⟩
      · exact ⟨hb, he, hval, htag, hd, hbd⟩
    | error e =>
      exact ⟨hb, he, hval, htag, hd, hbd⟩
  · simp

theorem string_no_oob (s : pbf) :
    (string s).1 ≠ Except.error Err.oobRead := by
  unfold string
  split
  · rcases hv : varint 32 s with ⟨r, s₁⟩
    have he := varint_errs 32 s
    have hf := varint_frame 32 s
    rw [hv] at he hf
    cases r with
    | ok n =>
      dsimp only at hf ⊢
      rcases skipBytes_cases n s₁ with ⟨heq, hle⟩ | ⟨heq, hlt⟩ <;> rw [heq]
      · dsimp only
        unfold readBytesAt
        have hc : s₁.data + n ≤ s₁.end_ := hle
        rw [if_pos (by dsimp only; omega)]
        simp
      · simp
    | error e =>
      simpa using he.1
  · simp

theorem message_frames : Frames message := by
  intro s
  unfold message
  split
  · rcases hv : varint 32 s with ⟨r, s₁⟩
    have hf := varint_frame 32 s
    rw [hv] at hf
    obtain ⟨hb, he, hval, htag, hd, hbd⟩ := hf
    cases r with
    | ok n =>
      dsimp only at hb he hval htag hd hbd ⊢
      rcases skipBytes_cases n s₁ with ⟨heq, hle⟩ | ⟨heq, hlt⟩ <;> rw [heq]
      · dsimp only
        exact ⟨hb, by omega, hval, htag, by omega, fun _ => by omega⟩
      · exact ⟨hb, he, hval, htag, hd, hbd⟩
    | error e =>
      exact ⟨hb, he, hval, htag, hd, hbd⟩
  · simp

theorem message_no_oob (s : pbf) :
    (message s).1 ≠ Except.error Err.oobRead := by
  unfold message
  split
  · rcases hv : varint 32 s with ⟨r, s₁⟩
    have he := varint_errs 32 s
    rw [hv] at he
    cases r with
    | ok n =>
      dsimp only
      rcases skipBytes_cases n s₁ with ⟨heq, hle⟩ | ⟨heq, hlt⟩ <;> rw [heq] <;> simp
    | error e =>
      simpa using he.1
  · simp

theorem boolean_frames : Frames boolean := by
  intro s
  unfold boolean
  by_cases hwt : wire_type s = 0
  · rw [if_pos hwt]
    by_cases hlt : s.data < s.end_
    · rw [if_pos hlt]
      dsimp only
      by_cases hb : s.buf.getD s.data 0 &&& 0x80 = 0
      · rw [if_pos hb]
        rcases skipBytes_cases 1 s with ⟨heq, hle⟩ | ⟨heq, hlt2⟩
        · rw [heq]
          dsimp only
          exact ⟨rfl, rfl, rfl, rfl, by omega, fun _ => by omega⟩
        · exact absurd hlt2 (by omega)
      · rw [if_neg hb]
        exact ⟨rfl, rfl, rfl, rfl, le_refl _, fun h => h⟩
    · rw [if_neg hlt]
      exact ⟨rfl, rfl, rfl, rfl, le_refl _, fun h => h⟩
  · rw [if_neg hwt]
    exact ⟨rfl, rfl, rfl, rfl, le_refl _, fun h => h⟩

theorem boolean_no_oob (s : pbf) (hlt : s.data < s.end_) :
    (boolean s).1 ≠ Except.error Err.oobRead := by
  unfold boolean
  by_cases hwt : wire_type s = 0
  · rw [if_pos hwt, if_pos hlt]
    dsimp only
    by_cases hb : s.buf.getD s.data 0 &&& 0x80 = 0
    · rw [if_pos hb]
      rcases skipBytes_cases 1 s with ⟨heq, hle⟩ | ⟨heq, hlt2⟩
      · rw [heq]
        simp
      · exact absurd hlt2 (by omega)
    · rw [if_neg hb]
      simp
  · rw [if_neg hwt]
    simp

theorem skipValue_frames (val : Nat) : Frames (skipValue val) := by
  intro s
  unfold skipValue
  have h7 : val &&& 0x7 ≤ 7 := Nat.and_le_right
  generalize hk : val &&& 0x7 = k at *
  interval_cases k
  · rcases hv : varint 32 s with ⟨r, s₁⟩
    have hf := varint_frame 32 s
    rw [hv] at hf
    cases r <;> simpa using hf
  · have h := skipBytes_frame 8 s
    exact ⟨h.1, h.2.1, h.2.2.1, h.2.2.2.1, h.2.2.2.2.1, h.2.2.2.2.2.1⟩
  · rcases hv : varint 32 s with ⟨r, s₁⟩
    have hf := varint_frame 32 s
    rw [hv] at hf
    obtain ⟨hb, he, hval, htag, hd, hbd⟩ := hf
    cases r with
    | ok n =>
      dsimp only at hb he hval htag hd hbd ⊢
      rcases skipBytes_cases n s₁ with ⟨heq, hle⟩ | ⟨heq, hlt⟩ <;> rw [heq]
      · dsimp only
        exact ⟨hb, by omega, hval, htag, by omega, fun _ => by omega⟩
      · exact ⟨hb, he, hval, htag, hd, hbd⟩
    | error e =>
      exact ⟨hb, he, hval, htag, hd, hbd⟩
  · simp
  · simp
  · have h := skipBytes_frame 4 s
    exact ⟨h.1, h.2.1, h.2.2.1, h.2.2.2.1, h.2.2.2.2.1, h.2.2.2.2.2.1⟩
  · simp
  · simp

theorem skipValue_no_oob (val : Nat) (s : pbf) :
    (skipValue val s).1 ≠ Except.error Err.oobRead := by
  unfold skipValue
  have h7 : val &&& 0x7 ≤ 7 := Nat.and_le_right
  generalize hk : val &&& 0x7 = k at *
  interval_cases k
  · rcases hv : varint 32 s with ⟨r, s₁⟩
    have he := varint_errs 32 s
    rw [hv] at he
    cases r with
    | ok n => simp
    | error e => simpa using he.1
  · exact (skipBytes_frame 8 s).2.2.2.2.2.2
  · rcases hv : varint 32 s with ⟨r, s₁⟩
    have he := varint_errs 32 s
    rw [hv] at he
    cases r with
    | ok n =>
      dsimp only
      exact (skipBytes_frame n s₁).2.2.2.2.2.2
    | error e => simpa using he.1
  · simp
  · simp
  · exact (skipBytes_frame 4 s).2.2.2.2.2.2
  · simp
  · simp

theorem skip_frames : Frames skip := by
  intro s
  unfold skip
  exact skipValue_frames s.value s

theorem skip_no_oob (s : pbf) : (skip s).1 ≠ Except.error Err.oobRead := by
  unfold skip
  exact skipValue_no_oob s.value s

theorem next_frame (s : pbf) :
    (next s).2.buf = s.buf ∧ (next s).2.end_ = s.end_ ∧
    s.data ≤ (next s).2.data ∧
    (s.data ≤ s.end_ → (next s).2.data ≤ s.end_) ∧
    ((next s).1 = Except.ok true → s.data < (next s).2.data) ∧
    ((next s).1 = Except.ok false → (next s).2 = s ∧ s.end_ ≤ s.data) ∧
    (next s).1 ≠ Except.error Err.oobRead := by
  unfold next
  by_cases hlt : s.data < s.end_
  · rw [if_pos hlt]
    rcases hv : varint 32 s with ⟨r, s'⟩
    have hf := varint_frame 32 s
    have he := varint_errs 32 s
    rw [hv] at hf he
    cases r with
    | ok v =>
      have hc := varint_ok_consumes 32 s v (by rw [hv])
      rw [hv] at hc
      simp only at hf he hc ⊢
      refine ⟨hf.1, hf.2.1, by omega, fun h => hf.2.2.2.2.2 h, fun _ => hc, ?_, by simp⟩
      intro h
      simp at h
    | error e =>
      simp only at hf he ⊢
      refine ⟨hf.1, hf.2.1, hf.2.2.2.2.1, fun h => hf.2.2.2.2.2 h, ?_, ?_, ?_⟩
      · intro h; simp at h
      · intro h; simp at h
      · simpa using he.1
  · rw [if_neg hlt]
    simp
    omega

end pbf

/-! Bit-level helper lemmas. -/

theorem or_mod_two_pow (w x y : Nat) :
    (x % 2 ^ w ||| y) % 2 ^ w = (x ||| y) % 2 ^ w := by
  apply Nat.eq_of_testBit_eq
  intro i
  by_cases h : i < w <;> simp [h]

theorem or_shiftLeft_distrib (a b n : Nat) :
    (a ||| b) <<< n = (a <<< n) ||| (b <<< n) := by
  apply Nat.eq_of_testBit_eq
  intro i
  simp [Bool.and_or_distrib_left]

theorem mod_or_div_shift (k v : Nat) : v % 2 ^ k ||| ((v / 2 ^ k) <<< k) = v := by
  rw [← Nat.shiftRight_eq_div_pow]
  apply Nat.eq_of_testBit_eq
  intro i
  by_cases h : i < k
  · have h2 : ¬ (i ≥ k) := by omega
    simp [h, h2]
  · have h2 : i ≥ k := by omega
    have h3 : k + (i - k) = i := by omega
    simp [h, h2, h3]

theorem head_and_127 (r : Nat) (hr : r < 128) : (r + 128) &&& 0x7F = r := by
  have h : (0x7F : Nat) = 2 ^ 7 - 1 := by norm_num
  rw [h, Nat.and_pow_two_sub_one_eq_mod]
  omega

theorem head_cont_set (r : Nat) (hr : r < 128) : (r + 128) &&& 0x80 ≠ 0 := by
  have h128 : (0x80 : Nat) = 2 ^ 7 := by norm_num
  rw [h128, Nat.and_two_pow]
  rw [Nat.add_comm, Nat.testBit_two_pow_add_eq, Nat.testBit_lt_two_pow hr]
  simp

theorem small_and_128 (v : Nat) (hv : v < 128) : v &&& 0x80 = 0 := by
  have h128 : (0x80 : Nat) = 2 ^ 7 := by norm_num
  rw [h128, Nat.and_two_pow, Nat.testBit_lt_two_pow hv]
  simp

theorem small_and_127 (v : Nat) (hv : v < 128) : v &&& 0x7F = v := by
  have h : (0x7F : Nat) = 2 ^ 7 - 1 := by norm_num
  rw [h, Nat.and_pow_two_sub_one_eq_mod]
  omega

/-! Decoding a complete varint byte run. -/

namespace pbf

theorem varintLoop_run (w : Nat) (bs : List Nat) :
    ∀ fuel byte result bitpos (s : pbf),
      byte &&& 0x80 ≠ 0 → varintRun bs → bs.length ≤ fuel →
      bytesAt s.buf s.data bs → s.data + bs.length ≤ s.end_ →
      varintLoop w fuel byte result bitpos s =
        (Except.ok ((result ||| (varintValue bs <<< bitpos)) % 2 ^ w),
         { s with data := s.data + bs.length }) := by
  induction bs with
  | nil =>
    intro fuel byte result bitpos s _ hrun _ _ _
    exact absurd rfl hrun.1
  | cons b rest ih =>
    intro fuel byte result bitpos s hbyte hrun hlen hat hroom
    cases fuel with
    | zero => simp at hlen
    | succ f =>
      simp only [varintLoop, if_neg hbyte]
      have hne : ¬ (s.end_ ≤ s.data) := by
        simp only [List.length_cons] at hroom
        omega
      rw [if_neg hne]
      have hb0 : s.buf.getD s.data 0 = b := by
        have := hat 0 (by simp)
        simpa using this
      rw [hb0]
      by_cases hlast : rest = []
      · subst hlast
        have hbc : b &&& 0x80 = 0 := by
          have := hrun.2.2
          simpa using this
        cases f <;>
          simp only [varintLoop, if_pos hbc] <;>
          · refine Prod.ext ?_ ?_
            · simp [varintValue]
            · simp
      · have hlenr : 1 ≤ rest.length := by
          cases rest with
          | nil => exact absurd rfl hlast
          | cons c cs => simp
        have hbc : b &&& 0x80 ≠ 0 := by
          have := hrun.2.1 0 (by simp; omega)
          simpa using this
        have hrun2 : varintRun rest := by
          refine ⟨hlast, ?_, ?_⟩
          · intro i hi
            have := hrun.2.1 (i + 1) (by simp; omega)
            simpa using this
          · have := hrun.2.2
            have hx : (b :: rest).length - 1 = (rest.length - 1) + 1 := by
              simp
              omega
            rw [hx] at this
            simpa using this
        have hat2 : bytesAt s.buf (s.data + 1) rest := by
          intro i hi
          have := hat (i + 1) (by simp; omega)
          have hadd : s.data + (i + 1) = s.data + 1 + i := by omega
          rw [hadd] at this
          simpa using this
        have hrec := ih f b ((result ||| ((b &&& 0x7F) <<< bitpos)) % 2 ^ w) (bitpos + 7)
          { s with data := s.data + 1 } hbc hrun2 (by simp at hlen; omega) hat2
          (by simp only [List.length_cons] at hroom; simp; omega)
        rw [hrec]
        refine Prod.ext ?_ ?_
        · simp only
          rw [or_mod_two_pow]
          congr 2
          simp [varintValue, or_shiftLeft_distrib, ← Nat.shiftLeft_add, Nat.or_assoc,
            Nat.add_comm]
        · simp
          omega

theorem varint_run (w : Nat) (s : pbf) (bs : List Nat)
    (hwt : wire_type s = 0 ∨ wire_type s = 2) (hrun : varintRun bs)
    (hlen : bs.length ≤ 10) (hat : bytesAt s.buf s.data bs)
    (hroom : s.data + bs.length ≤ s.end_) :
    varint w s =
      (Except.ok (varintValue bs % 2 ^ w), { s with data := s.data + bs.length }) := by
  unfold varint
  rw [if_pos hwt, varintLoop_run w bs 10 0x80 0 0 s (by decide) hrun hlen hat hroom]
  simp

theorem varintLoopShiftMasked_agrees_run (w : Nat) (bs : List Nat) :
    ∀ fuel byte result bitpos (s : pbf),
      byte &&& 0x80 ≠ 0 → varintRun bs → bs.length ≤ fuel →
      bytesAt s.buf s.data bs → s.data + bs.length ≤ s.end_ →
      bitpos + 7 * (bs.length - 1) < w →
      varintLoopShiftMasked w fuel byte result bitpos s =
        varintLoop w fuel byte result bitpos s := by
  induction bs with
  | nil =>
    intro fuel byte result bitpos s _ hrun _ _ _ _
    exact absurd rfl hrun.1
  | cons b rest ih =>
    intro fuel byte result bitpos s hbyte hrun hlen hat hroom hub
    cases fuel with
    | zero => simp at hlen
    | succ f =>
      simp only [varintLoopShiftMasked, varintLoop, if_neg hbyte]
      have hne : ¬ (s.end_ ≤ s.data) := by
        simp only [List.length_cons] at hroom
        omega
      rw [if_neg hne, if_neg hne]
      have hb0 : s.buf.getD s.data 0 = b := by
        have := hat 0 (by simp)
        simpa using this
      rw [hb0]
      have hbp : bitpos % w = bitpos := Nat.mod_eq_of_lt (by omega)
      rw [hbp]
      by_cases hlast : rest = []
      · subst hlast
        have hbc : b &&& 0x80 = 0 := by
          have := hrun.2.2
          simpa using this
        cases f <;> simp only [varintLoopShiftMasked, varintLoop, if_pos hbc]
      · have hlenr : 1 ≤ rest.length := by
          cases rest with
          | nil => exact absurd rfl hlast
          | cons c cs => simp
        have hbc : b &&& 0x80 ≠ 0 := by
          have := hrun.2.1 0 (by simp; omega)
          simpa using this
        have hrun2 : varintRun rest := by
          refine ⟨hlast, ?_, ?_⟩
          · intro i hi
            have := hrun.2.1 (i + 1) (by simp; omega)
            simpa using this
          · have := hrun.2.2
            have hx : (b :: rest).length - 1 = (rest.length - 1) + 1 := by
              simp
              omega
            rw [hx] at this
            simpa using this
        have hat2 : bytesAt s.buf (s.data + 1) rest := by
          intro i hi
          have := hat (i + 1) (by simp; omega)
          have hadd : s.data + (i + 1) = s.data + 1 + i := by omega
          rw [hadd] at this
          simpa using this
        exact ih f b ((result ||| ((b &&& 0x7F) <<< bitpos)) % 2 ^ w) (bitpos + 7)
          { s with data := s.data + 1 } hbc hrun2 (by simp at hlen; omega) hat2
          (by simp only [List.length_cons] at hroom; simp; omega)
          (by simp only [List.length_cons] at hub; omega)

theorem varintShiftMasked_agrees (w : Nat) (s : pbf) (bs : List Nat)
    (hrun : varintRun bs) (hlen : bs.length ≤ 10) (hat : bytesAt s.buf s.data bs)
    (hroom : s.data + bs.length ≤ s.end_) (hub : 7 * (bs.length - 1) < w) :
    varintShiftMasked w s = varint w s := by
  unfold varintShiftMasked varint
  split
  · exact varintLoopShiftMasked_agrees_run w bs 10 0x80 0 0 s (by decide) hrun hlen hat hroom
      (by omega)
  · rfl

end pbf

/-! The varint encoder produces valid runs that decode back to the value. -/

theorem encodeVarintAux_spec :
    ∀ fuel v, v < 2 ^ (7 * fuel) → 1 ≤ fuel →
      (encodeVarintAux fuel v).length ≤ fuel ∧ varintRun (encodeVarintAux fuel v) ∧
        varintValue (encodeVarintAux fuel v) = v := by
  intro fuel
  induction fuel with
  | zero => intro v _ h1; omega
  | succ f ih =>
    intro v hv _
    simp only [encodeVarintAux]
    by_cases hsmall : v < 0x80
    · rw [if_pos hsmall]
      refine ⟨by simp, ⟨by simp, ?_, ?_⟩, ?_⟩
      · intro i hi
        simp at hi
      · simpa using small_and_128 v hsmall
      · simp [varintValue]
        exact small_and_127 v hsmall
    · rw [if_neg hsmall]
      have hf1 : 1 ≤ f := by
        rcases Nat.eq_zero_or_pos f with h0 | h1
        · subst h0
          norm_num at hv
          omega
        · exact h1
      have hdiv : v / 0x80 < 2 ^ (7 * f) := by
        apply Nat.div_lt_of_lt_mul
        calc v < 2 ^ (7 * (f + 1)) := hv
          _ = 2 ^ (7 * f) * 2 ^ 7 := by rw [← pow_add]; ring_nf
          _ = 128 * 2 ^ (7 * f) := by ring
      obtain ⟨ihlen, ihrun, ihval⟩ := ih (v / 0x80) hdiv hf1
      have hmod : v % 0x80 < 128 := Nat.mod_lt v (by norm_num)
      have htail : encodeVarintAux f (v / 0x80) ≠ [] := ihrun.1
      refine ⟨by simp; omega, ⟨by simp, ?_, ?_⟩, ?_⟩
      · intro i hi
        cases i with
        | zero =>
          simpa using head_cont_set (v % 0x80) hmod
        | succ j =>
          have := ihrun.2.1 j (by simp at hi; omega)
          simpa using this
      · have hlen1 : 1 ≤ (encodeVarintAux f (v / 0x80)).length := by
          cases h : encodeVarintAux f (v / 0x80) with
          | nil => exact absurd h htail
          | cons c cs => simp
        have hx : ((v % 0x80 + 0x80) :: encodeVarintAux f (v / 0x80)).length - 1 =
            ((encodeVarintAux f (v / 0x80)).length - 1) + 1 := by
          simp
          omega
        rw [hx]
        simpa using ihrun.2.2
      · simp only [varintValue, ihval]
        rw [head_and_127 (v % 0x80) hmod]
        have h7 : (128 : Nat) = 2 ^ 7 := by norm_num
        have := mod_or_div_shift 7 v
        simpa [← h7] using this

theorem encodeVarint_spec (v : Nat) (hv : v < 2 ^ 70) :
    (encodeVarint v).length ≤ 10 ∧ varintRun (encodeVarint v) ∧
      varintValue (encodeVarint v) = v :=
  encodeVarintAux_spec 10 v (by norm_num at hv ⊢; omega) (by norm_num)

/-! The filtered advance: enough fuel is always available, so `nextTag`
satisfies the loop's natural unfolding equation. -/

namespace pbf

theorem nextTagAux_fuel_irrel (t : Nat) :
    ∀ f₁ f₂ (s : pbf), s.data ≤ s.end_ → s.end_ - s.data < f₁ → s.end_ - s.data < f₂ →
      nextTagAux t f₁ s = nextTagAux t f₂ s := by
  intro f₁
  induction f₁ with
  | zero => intro f₂ s _ h1 _; omega
  | succ f ih =>
    intro f₂ s hs h1 h2
    cases f₂ with
    | zero => omega
    | succ g =>
      simp only [nextTagAux]
      rcases hn : next s with ⟨rn, s₁⟩
      have hnf := next_frame s
      rw [hn] at hnf
      dsimp only at hnf
      cases rn with
      | ok bb =>
        cases bb with
        | true =>
          dsimp only
          by_cases htag : s₁.tag = t
          · simp only [if_pos htag]
          · simp only [if_neg htag]
            rcases hk : skip s₁ with ⟨rs, s₂⟩
            have hkf := skip_frames s₁
            rw [hk] at hkf
            dsimp only at hkf
            cases rs with
            | ok u =>
              dsimp only
              have hd1 : s.data < s₁.data := hnf.2.2.2.2.1 rfl
              have he1 : s₁.end_ = s.end_ := hnf.2.1
              have hb1 : s₁.data ≤ s.end_ := hnf.2.2.2.1 hs
              have hd2 : s₁.data ≤ s₂.data := hkf.2.2.2.2.1
              have he2 : s₂.end_ = s₁.end_ := hkf.2.1
              have hb2 : s₂.data ≤ s₂.end_ := by
                have := hkf.2.2.2.2.2 (by omega)
                omega
              exact ih g s₂ hb2 (by omega) (by omega)
            | error e => rfl
        | false => rfl
      | error e => rfl

theorem nextTag_unfold (t : Nat) (s : pbf) (hs : s.data ≤ s.end_) :
    nextTag t s =
      (match next s with
       | (Except.ok true, s₁) =>
         if s₁.tag = t then (Except.ok true, s₁)
         else
           match skip s₁ with
           | (Except.ok _, s₂) => nextTag t s₂
           | (Except.error e, s₂) => (Except.error e, s₂)
       | (Except.ok false, s₁) => (Except.ok false, s₁)
       | (Except.error e, s₁) => (Except.error e, s₁)) := by
  unfold nextTag
  have hsplit : s.end_ - s.data + 1 = (s.end_ - s.data) + 1 := rfl
  rw [hsplit]
  simp only [nextTagAux]
  rcases hn : next s with ⟨rn, s₁⟩
  have hnf := next_frame s
  rw [hn] at hnf
  dsimp only at hnf
  cases rn with
  | ok bb =>
    cases bb with
    | true =>
      dsimp only
      by_cases htag : s₁.tag = t
      · simp only [if_pos htag]
      · simp only [if_neg htag]
        rcases hk : skip s₁ with ⟨rs, s₂⟩
        have hkf := skip_frames s₁
        rw [hk] at hkf
        dsimp only at hkf
        cases rs with
        | ok u =>
          dsimp only
          have hd1 : s.data < s₁.data := hnf.2.2.2.2.1 rfl
          have he1 : s₁.end_ = s.end_ := hnf.2.1
          have hb1 : s₁.data ≤ s.end_ := hnf.2.2.2.1 hs
          have hd2 : s₁.data ≤ s₂.data := hkf.2.2.2.2.1
          have he2 : s₂.end_ = s₁.end_ := hkf.2.1
          have hb2 : s₂.data ≤ s₂.end_ := by
            have := hkf.2.2.2.2.2 (by omega)
            omega
          exact nextTagAux_fuel_irrel t (s.end_ - s.data) (s₂.end_ - s₂.data + 1) s₂
            hb2 (by omega) (by omega)
        | error e => rfl
    | false => rfl
  | error e => rfl

theorem nextTagAux_ok_true_tag (t : Nat) :
    ∀ fuel (s : pbf), (nextTagAux t fuel s).1 = Except.ok true →
      (nextTagAux t fuel s).2.tag = t := by
  intro fuel
  induction fuel with
  | zero =>
    intro s h
    simp [nextTagAux] at h
  | succ f ih =>
    intro s h
    simp only [nextTagAux] at h ⊢
    rcases hn : next s with ⟨rn, s₁⟩
    rw [hn] at h
    cases rn with
    | ok bb =>
      cases bb with
      | true =>
        dsimp only at h ⊢
        by_cases htag : s₁.tag = t
        · rw [if_pos htag] at h ⊢
          exact htag
        · rw [if_neg htag] at h ⊢
          rcases hk : skip s₁ with ⟨rs, s₂⟩
          rw [hk] at h
          cases rs with
          | ok u => exact ih s₂ h
          | error e => simp at h
      | false => simp at h
    | error e => simp at h

theorem nextTagAux_ok_false_exhausted (t : Nat) :
    ∀ fuel (s : pbf), s.data ≤ s.end_ → s.end_ - s.data < fuel →
      (nextTagAux t fuel s).1 = Except.ok false →
      (nextTagAux t fuel s).2.data = (nextTagAux t fuel s).2.end_ := by
  intro fuel
  induction fuel with
  | zero => intro s _ h1 _; omega
  | succ f ih =>
    intro s hs hfuel h
    simp only [nextTagAux] at h ⊢
    rcases hn : next s with ⟨rn, s₁⟩
    rw [hn] at h
    have hnf := next_frame s
    rw [hn] at hnf
    dsimp only at hnf
    cases rn with
    | ok bb =>
      cases bb with
      | true =>
        dsimp only at h ⊢
        by_cases htag : s₁.tag = t
        · rw [if_pos htag] at h
          simp at h
        · rw [if_neg htag] at h ⊢
          rcases hk : skip s₁ with ⟨rs, s₂⟩
          rw [hk] at h
          have hkf := skip_frames s₁
          rw [hk] at hkf
          dsimp only at hkf
          cases rs with
          | ok u =>
            have hd1 : s.data < s₁.data := hnf.2.2.2.2.1 rfl
            have he1 : s₁.end_ = s.end_ := hnf.2.1
            have hb1 : s₁.data ≤ s.end_ := hnf.2.2.2.1 hs
            have hd2 : s₁.data ≤ s₂.data := hkf.2.2.2.2.1
            have he2 : s₂.end_ = s₁.end_ := hkf.2.1
            have hb2 : s₂.data ≤ s₂.end_ := by
              have := hkf.2.2.2.2.2 (by omega)
              omega
            exact ih s₂ hb2 (by omega) h
          | error e => simp at h
      | false =>
        dsimp only at h ⊢
        have := hnf.2.2.2.2.2.1 rfl
        have h1 : s₁ = s := this.1
        subst h1
        omega
    | error e => simp at h

end pbf

/-! Failure-path lemmas for the varint loop, and bound lemmas for the
filtered advance. -/

namespace pbf

theorem varintLoop_all_cont (w : Nat) :
    ∀ n fuel byte result bitpos (s : pbf),
      byte &&& 0x80 ≠ 0 → s.data ≤ s.end_ → s.end_ - s.data = n → n < fuel →
      (∀ i, s.data ≤ i → i < s.end_ → s.buf.getD i 0 &&& 0x80 ≠ 0) →
      varintLoop w fuel byte result bitpos s =
        (Except.error Err.unterminatedVarint, { s with data := s.end_ }) := by
  intro n
  induction n with
  | zero =>
    intro fuel byte result bitpos s hbyte hle hn hfuel _
    cases fuel with
    | zero => omega
    | succ f =>
      simp only [varintLoop, if_neg hbyte]
      rw [if_pos (by omega)]
      have hde : s.end_ = s.data := by omega
      cases s with
      | mk b d e v tg =>
        dsimp only at hde ⊢
        rw [hde]
  | succ n ih =>
    intro fuel byte result bitpos s hbyte hle hn hfuel hcont
    cases fuel with
    | zero => omega
    | succ f =>
      simp only [varintLoop, if_neg hbyte]
      rw [if_neg (by omega)]
      have hb := hcont s.data (le_refl _) (by omega)
      rw [ih f (s.buf.getD s.data 0)
        ((result ||| ((s.buf.getD s.data 0 &&& 0x7F) <<< bitpos)) % 2 ^ w) (bitpos + 7)
        { s with data := s.data + 1 } hb (by dsimp only; omega) (by dsimp only; omega)
        (by omega) (by intro i h1 h2; exact hcont i (by dsimp only at h1; omega) h2)]

theorem varintLoop_ten_cont (w : Nat) :
    ∀ fuel byte result bitpos (s : pbf),
      byte &&& 0x80 ≠ 0 → s.data + fuel ≤ s.end_ →
      (∀ i, i < fuel → s.buf.getD (s.data + i) 0 &&& 0x80 ≠ 0) →
      varintLoop w fuel byte result bitpos s =
        (Except.error Err.varintTooLong, { s with data := s.data + fuel }) := by
  intro fuel
  induction fuel with
  | zero =>
    intro byte result bitpos s hbyte _ _
    simp only [varintLoop, if_neg hbyte]
    rfl
  | succ f ih =>
    intro byte result bitpos s hbyte hroom hcont
    simp only [varintLoop, if_neg hbyte]
    rw [if_neg (by omega)]
    have hb := hcont 0 (by omega)
    rw [Nat.add_zero] at hb
    rw [ih (s.buf.getD s.data 0)
      ((result ||| ((s.buf.getD s.data 0 &&& 0x7F) <<< bitpos)) % 2 ^ w) (bitpos + 7)
      { s with data := s.data + 1 } hb (by dsimp only; omega)
      (by
        intro i hi
        have := hcont (i + 1) (by omega)
        have hadd : s.data + (i + 1) = s.data + 1 + i := by omega
        rw [hadd] at this
        simpa using this)]
    refine Prod.ext rfl ?_
    simp
    omega

theorem nextTagAux_bound (t : Nat) :
    ∀ fuel (s : pbf), s.data ≤ s.end_ →
      (nextTagAux t fuel s).2.end_ = s.end_ ∧ (nextTagAux t fuel s).2.data ≤ s.end_ := by
  intro fuel
  induction fuel with
  | zero =>
    intro s hs
    exact ⟨rfl, hs⟩
  | succ f ih =>
    intro s hs
    simp only [nextTagAux]
    rcases hn : next s with ⟨rn, s₁⟩
    have hnf := next_frame s
    rw [hn] at hnf
    dsimp only at hnf
    cases rn with
    | ok bb =>
      cases bb with
      | true =>
        dsimp only
        by_cases htag : s₁.tag = t
        · simp only [if_pos htag]
          exact ⟨hnf.2.1, hnf.2.2.2.1 hs⟩
        · simp only [if_neg htag]
          rcases hk : skip s₁ with ⟨rs, s₂⟩
          have hkf := skip_frames s₁
          rw [hk] at hkf
          dsimp only at hkf
          have he1 : s₁.end_ = s.end_ := hnf.2.1
          have hb1 : s₁.data ≤ s.end_ := hnf.2.2.2.1 hs
          have he2 : s₂.end_ = s₁.end_ := hkf.2.1
          have hb2 : s₂.data ≤ s₂.end_ := by
            have := hkf.2.2.2.2.2 (by omega)
            omega
          cases rs with
          | ok u =>
            dsimp only
            have := ih s₂ hb2
            exact ⟨by omega, by omega⟩
          | error e =>
            dsimp only
            exact ⟨by omega, by omega⟩
      | false =>
        dsimp only
        have hs1 : s₁ = s := (hnf.2.2.2.2.2.1 rfl).1
        subst hs1
        exact ⟨rfl, hs⟩
    | error e =>
      dsimp only
      exact ⟨hnf.2.1, hnf.2.2.2.1 hs⟩

theorem nextTagAux_no_oob (t : Nat) :
    ∀ fuel (s : pbf), (nextTagAux t fuel s).1 ≠ Except.error Err.oobRead := by
  intro fuel
  induction fuel with
  | zero =>
    intro s
    simp [nextTagAux]
  | succ f ih =>
    intro s
    simp only [nextTagAux]
    rcases hn : next s with ⟨rn, s₁⟩
    have hnf := next_frame s
    rw [hn] at hnf
    dsimp only at hnf
    cases rn with
    | ok bb =>
      cases bb with
      | true =>
        dsimp only
        by_cases htag : s₁.tag = t
        · simp [if_pos htag]
        · simp only [if_neg htag]
          rcases hk : skip s₁ with ⟨rs, s₂⟩
          have hko := skip_no_oob s₁
          rw [hk] at hko
          cases rs with
          | ok u => exact ih s₂
          | error e => simpa using hko
      | false => simp
    | error e =>
      dsimp only
      simpa using hnf.2.2.2.2.2.2

end pbf

/-! Claim theorems. -/

namespace pbf

/-- C3: for every cursor whose remaining bytes all carry the continuation
bit (the buffer ends before a varint terminating byte) and which is
truncated mid-varint (fewer than 10 bytes remain, so the 10-group cap is
not hit first), `varint` fails with `UnterminatedVarint`, leaving `data` at
`end`; in particular it never reads at or past `end` (the result is not the
instrumented `oobRead`, and every read in `varintLoop` is guarded by
`data < end`). -/
theorem varint_truncated_fails_unterminated (w : Nat) (s : pbf)
    (hwt : wire_type s = 0 ∨ wire_type s = 2)
    (hle : s.data ≤ s.end_) (hshort : s.end_ - s.data < 10)
    (hcont : ∀ i, s.data ≤ i → i < s.end_ → s.buf.getD i 0 &&& 0x80 ≠ 0) :
    varint w s = (Except.error Err.unterminatedVarint, { s with data := s.end_ }) := by
  unfold varint
  rw [if_pos hwt]
  exact varintLoop_all_cont w (s.end_ - s.data) 10 0x80 0 0 s (by decide) hle rfl hshort hcont

/-- Witness for C3 at the two-byte truncated buffer `[0x80, 0x80]`. -/
theorem varint_truncated_fails_unterminated_witness :
    varint 32 (start [0x80, 0x80]) =
      (Except.error Err.unterminatedVarint, ⟨[0x80, 0x80], 2, 2, 0, 0⟩) :=
  varint_truncated_fails_unterminated 32 (start [0x80, 0x80]) (Or.inl rfl) (by decide)
    (by decide)
    (by
      intro i h1 h2
      have h2x : i < 2 := h2
      interval_cases i <;> decide)

/-- C4: for every cursor whose next 10 bytes all carry the continuation
bit, `varint` consumes exactly those 10 bytes (never more) and fails with
`VarintTooLong`. -/
theorem varint_ten_continuation_bytes_too_long (w : Nat) (s : pbf)
    (hwt : wire_type s = 0 ∨ wire_type s = 2)
    (hroom : s.data + 10 ≤ s.end_)
    (hcont : ∀ i, i < 10 → s.buf.getD (s.data + i) 0 &&& 0x80 ≠ 0) :
    varint w s = (Except.error Err.varintTooLong, { s with data := s.data + 10 }) := by
  unfold varint
  rw [if_pos hwt]
  exact varintLoop_ten_cont w 10 0x80 0 0 s (by decide) hroom hcont

/-- Witness for C4 at a buffer of 11 continuation bytes. -/
theorem varint_ten_continuation_bytes_too_long_witness :
    varint 32 (start (List.replicate 11 0x80)) =
      (Except.error Err.varintTooLong, ⟨List.replicate 11 0x80, 10, 11, 0, 0⟩) :=
  varint_ten_continuation_bytes_too_long 32 (start (List.replicate 11 0x80)) (Or.inl rfl)
    (by decide) (by decide)

/-- C5 counterexample: the claim's truncation guarantee does not survive
the source for a `T` narrower than the encoding demands.  Decoding the
6-byte encoding of `2 ^ 40 + 5` into 32-bit `T` reaches shift count 35,
which is at or above the operand width (`7 * (6 - 1) = 35 ≥ 32`) — C++
undefined behaviour at pbf.hpp line 106 — and under the count-masked shift
every mainstream x86 compiler actually emits, the decode returns 261
(group `0x20` lands at the masked position `35 % 32 = 3`, contaminating
the low bits), not the claimed `(2 ^ 40 + 5) % 2 ^ 32 = 5`. -/
theorem varint_mod_width_fails_for_narrow_type_long_encoding :
    7 * ((encodeVarint (2 ^ 40 + 5)).length - 1) ≥ 32 ∧
    (varintShiftMasked 32 (start (encodeVarint (2 ^ 40 + 5)))).1 = Except.ok 261 ∧
    (261 : Nat) ≠ (2 ^ 40 + 5) % 2 ^ 32 := by
  decide

/-- C5 (amended): decoding a well-formed varint encoding of `v` with
result width `w` returns `v % 2 ^ w` — exactly the value a fixed-width
unsigned assignment of `v` would keep, higher bits silently discarded —
and consumes exactly the encoding's bytes, PROVIDED every shift count of
the decode loop stays below `w` (`7 * (length - 1) < w`): always true for
the 64-bit `T` (counts reach at most 63), and for narrower `T` exactly
when the encoding is at most `⌈w / 7⌉` bytes.  In that regime the `% 2 ^ w`
accumulation is the genuine defined C++ unsigned semantics, and the second
conjunct shows the result does not depend on how the shift is compiled:
the count-masked variant computes the same decode.  Beyond that regime the
source's shift is undefined behaviour and no result is guaranteed (see the
counterexample above). -/
theorem varint_truncates_like_fixed_width_assignment (w : Nat) (s : pbf) (v : Nat)
    (hv : v < 2 ^ 70) (hub : 7 * ((encodeVarint v).length - 1) < w)
    (hwt : wire_type s = 0 ∨ wire_type s = 2)
    (hat : bytesAt s.buf s.data (encodeVarint v))
    (hroom : s.data + (encodeVarint v).length ≤ s.end_) :
    varint w s =
      (Except.ok (v % 2 ^ w), { s with data := s.data + (encodeVarint v).length }) ∧
    varintShiftMasked w s = varint w s := by
  obtain ⟨hlen, hrun, hval⟩ := encodeVarint_spec v hv
  constructor
  · rw [varint_run w s (encodeVarint v) hwt hrun hlen hat hroom, hval]
  · exact varintShiftMasked_agrees w s (encodeVarint v) hrun hlen hat hroom hub

/-- Witness for the amended C5: a 70-bit value — needing more bits than
the 64-bit result type has — decoded with every shift count below 64. -/
theorem varint_truncates_like_fixed_width_assignment_witness :
    (varint 64 (start (encodeVarint (2 ^ 69 + 5))) =
      (Except.ok ((2 ^ 69 + 5) % 2 ^ 64), ⟨encodeVarint (2 ^ 69 + 5), 10, 10, 0, 0⟩)) ∧
    varintShiftMasked 64 (start (encodeVarint (2 ^ 69 + 5))) =
      varint 64 (start (encodeVarint (2 ^ 69 + 5))) :=
  varint_truncates_like_fixed_width_assignment 64 (start (encodeVarint (2 ^ 69 + 5)))
    (2 ^ 69 + 5) (by decide) (by decide) (Or.inl rfl) (by decide) (by decide)

end pbf

namespace pbf

/-- C6: on a wire-type-2 field whose length varint decodes to `L` with at
least `L` bytes remaining after it, `message` returns a fresh cursor
covering exactly `[pos, pos + L)` (where `pos` is the position just past
the length varint) with cleared `value`/`tag`, and leaves the parent
cursor's position at `pos + L`; the parent and the returned cursor are
separate states, so later reads of the sub-cursor cannot affect the
parent. -/
theorem message_covers_length_delimited_payload (s : pbf) (L : Nat)
    (hwt : wire_type s = 2) (hL : L < 2 ^ 32)
    (hat : bytesAt s.buf s.data (encodeVarint L))
    (hroom : s.data + (encodeVarint L).length + L ≤ s.end_) :
    message s =
      (Except.ok
        { buf := s.buf, data := s.data + (encodeVarint L).length,
          end_ := s.data + (encodeVarint L).length + L, value := 0, tag := 0 },
       { s with data := s.data + (encodeVarint L).length + L }) := by
  unfold message
  rw [if_pos hwt]
  have hv : L < 2 ^ 70 := lt_trans hL (by norm_num)
  obtain ⟨hlen, hrun, hval⟩ := encodeVarint_spec L hv
  rw [varint_run 32 s (encodeVarint L) (Or.inr hwt) hrun hlen hat (by omega), hval,
    Nat.mod_eq_of_lt hL]
  dsimp only
  rcases skipBytes_cases L { s with data := s.data + (encodeVarint L).length } with
    ⟨heq, hle2⟩ | ⟨heq, hlt2⟩
  · rw [heq]
  · dsimp only at hlt2
    omega

/-- Witness for C6: buffer `[0x03, 0xAA, 0xBB, 0xCC, 0x05]` with the key
already decoded as wire type 2, length 3. -/
theorem message_covers_length_delimited_payload_witness :
    message ⟨[0x03, 0xAA, 0xBB, 0xCC, 0x05], 0, 5, 2, 0⟩ =
      (Except.ok ⟨[0x03, 0xAA, 0xBB, 0xCC, 0x05], 1, 4, 0, 0⟩,
       ⟨[0x03, 0xAA, 0xBB, 0xCC, 0x05], 4, 5, 2, 0⟩) :=
  message_covers_length_delimited_payload ⟨[0x03, 0xAA, 0xBB, 0xCC, 0x05], 0, 5, 2, 0⟩ 3
    (by decide) (by decide) (by decide) (by decide)

/-- C7: the filtered advance `next(tag)` satisfies its loop specification:
it performs one unconditional advance; on "no more fields" it returns
false; on a field with the requested tag it stops successfully, positioned
on that field's value; on any other field it skips the value and repeats.
Moreover a `true` result always leaves `tag` equal to the requested tag,
and a `false` result means the buffer was exhausted (all remaining fields
consumed). -/
theorem nextTag_filtered_advance (t : Nat) (s : pbf) (hs : s.data ≤ s.end_) :
    nextTag t s =
      (match next s with
       | (Except.ok true, s₁) =>
         if s₁.tag = t then (Except.ok true, s₁)
         else
           match skip s₁ with
           | (Except.ok _, s₂) => nextTag t s₂
           | (Except.error e, s₂) => (Except.error e, s₂)
       | (Except.ok false, s₁) => (Except.ok false, s₁)
       | (Except.error e, s₁) => (Except.error e, s₁)) ∧
    ((nextTag t s).1 = Except.ok true → (nextTag t s).2.tag = t) ∧
    ((nextTag t s).1 = Except.ok false →
      (nextTag t s).2.data = (nextTag t s).2.end_) := by
  refine ⟨nextTag_unfold t s hs, ?_, ?_⟩
  · exact fun h => nextTagAux_ok_true_tag t (s.end_ - s.data + 1) s h
  · exact fun h => nextTagAux_ok_false_exhausted t (s.end_ - s.data + 1) s hs (by omega) h

/-- Witness for C7 over fields with tags 1, 5, 7: searching for tag 5
lands on the tag-5 value having discarded the tag-1 field, and searching
for an absent tag 9 exhausts the buffer. -/
theorem nextTag_filtered_advance_witness :
    (nextTag 5 (start [0x08, 0x01, 0x28, 0x02, 0x38, 0x03])).1 = Except.ok true ∧
    (nextTag 5 (start [0x08, 0x01, 0x28, 0x02, 0x38, 0x03])).2.tag = 5 ∧
    (nextTag 5 (start [0x08, 0x01, 0x28, 0x02, 0x38, 0x03])).2.data = 3 ∧
    (nextTag 9 (start [0x08, 0x01, 0x28, 0x02, 0x38, 0x03])).1 = Except.ok false ∧
    (nextTag 9 (start [0x08, 0x01, 0x28, 0x02, 0x38, 0x03])).2.data =
      (nextTag 9 (start [0x08, 0x01, 0x28, 0x02, 0x38, 0x03])).2.end_ := by
  have h5 := nextTag_filtered_advance 5 (start [0x08, 0x01, 0x28, 0x02, 0x38, 0x03])
    (by decide)
  have h9 := nextTag_filtered_advance 9 (start [0x08, 0x01, 0x28, 0x02, 0x38, 0x03])
    (by decide)
  exact ⟨by decide, h5.2.1 (by decide), by decide, by decide, h9.2.2 (by decide)⟩

/-- C8: when the most recently decoded key's wire type is outside
`{0, 1, 2, 5}` (e.g. 3 or 4), `skip` fails with `UnknownFieldType` and
leaves the whole cursor — in particular the read position — exactly as it
was. -/
theorem skip_unknown_wire_type_leaves_cursor (s : pbf)
    (hwt : ¬ (wire_type s = 0 ∨ wire_type s = 1 ∨ wire_type s = 2 ∨ wire_type s = 5)) :
    skip s = (Except.error Err.unknownFieldType, s) := by
  unfold skip skipValue
  unfold wire_type at hwt
  push_neg at hwt
  obtain ⟨h0, h1, h2, h5⟩ := hwt
  have h7 : s.value &&& 0x7 ≤ 7 := Nat.and_le_right
  generalize hk : s.value &&& 0x7 = k at *
  interval_cases k <;> simp_all

/-- Witness for C8 with wire type 3. -/
theorem skip_unknown_wire_type_leaves_cursor_witness :
    skip ⟨[0x01, 0x02], 0, 2, 3, 0⟩ =
      (Except.error Err.unknownFieldType, ⟨[0x01, 0x02], 0, 2, 3, 0⟩) :=
  skip_unknown_wire_type_leaves_cursor ⟨[0x01, 0x02], 0, 2, 3, 0⟩ (by decide)

/-- C9: on a wire-type-0 field with at least one byte remaining, if the
byte at the current position has its continuation bit set `boolean`
rejects it with a reported failure (the failing one-byte assertion),
leaving the cursor unchanged; otherwise it consumes exactly that one byte
and returns true iff the byte is non-zero. -/
theorem boolean_strict_one_byte (s : pbf)
    (hwt : wire_type s = 0) (hlt : s.data < s.end_) :
    (s.buf.getD s.data 0 &&& 0x80 ≠ 0 →
      boolean s = (Except.error Err.assertFail, s)) ∧
    (s.buf.getD s.data 0 &&& 0x80 = 0 →
      boolean s =
        (Except.ok (decide (s.buf.getD s.data 0 ≠ 0)), { s with data := s.data + 1 })) := by
  constructor <;> intro hb <;> unfold boolean <;> rw [if_pos hwt, if_pos hlt] <;> dsimp only
  · rw [if_neg hb]
  · rw [if_pos hb]
    rcases skipBytes_cases 1 s with ⟨heq, hle2⟩ | ⟨heq, hlt2⟩
    · rw [heq]
      dsimp only
      rw [Nat.add_sub_cancel]
    · omega

/-- Witness for C9: the byte `0x96` (continuation bit set) is rejected,
the bytes `0x01` and `0x00` decode to true and false. -/
theorem boolean_strict_one_byte_witness :
    boolean ⟨[0x96, 0x01], 0, 2, 0, 0⟩ =
      (Except.error Err.assertFail, ⟨[0x96, 0x01], 0, 2, 0, 0⟩) ∧
    boolean ⟨[0x01, 0x00], 0, 2, 0, 0⟩ =
      (Except.ok true, ⟨[0x01, 0x00], 1, 2, 0, 0⟩) ∧
    boolean ⟨[0x01, 0x00], 1, 2, 0, 0⟩ =
      (Except.ok false, ⟨[0x01, 0x00], 2, 2, 0, 0⟩) :=
  ⟨(boolean_strict_one_byte ⟨[0x96, 0x01], 0, 2, 0, 0⟩ (by decide) (by decide)).1 (by decide),
   (boolean_strict_one_byte ⟨[0x01, 0x00], 0, 2, 0, 0⟩ (by decide) (by decide)).2 (by decide),
   (boolean_strict_one_byte ⟨[0x01, 0x00], 1, 2, 0, 0⟩ (by decide) (by decide)).2 (by decide)⟩

end pbf

namespace pbf

/-- C1 (failing evaluation): decoding the zigzag-varint encoding of the
width extremes does NOT return the original value — `svarint` computes
`(n >> 1) ^ -(n & 1)` on the SIGNED type, so the arithmetic right shift
copies the sign bit of `n` instead of shifting in a zero, corrupting every
value whose zigzag image has the top bit set: INT32_MIN decodes to 0,
INT32_MAX to -1, and likewise at 64 bits.  Small-magnitude values (where
the top bit of the zigzag image is clear) do round-trip, confirming the
encoder side of the model. -/
theorem svarint_extremes_not_roundtrip :
    (svarint 32 (start (encodeVarint (zigzag (-(2 ^ 31)))))).1 = Except.ok 0 ∧
    (0 : Int) ≠ -(2 ^ 31) ∧
    (svarint 32 (start (encodeVarint (zigzag (2 ^ 31 - 1))))).1 = Except.ok (-1) ∧
    ((-1 : Int) ≠ 2 ^ 31 - 1) ∧
    (svarint 64 (start (encodeVarint (zigzag (-(2 ^ 63)))))).1 = Except.ok 0 ∧
    (0 : Int) ≠ -(2 ^ 63) ∧
    (svarint 64 (start (encodeVarint (zigzag (2 ^ 63 - 1))))).1 = Except.ok (-1) ∧
    ((-1 : Int) ≠ 2 ^ 63 - 1) ∧
    (svarint 32 (start (encodeVarint (zigzag 150)))).1 = Except.ok 150 ∧
    (svarint 32 (start (encodeVarint (zigzag (-150))))).1 = Except.ok (-150) ∧
    (svarint 64 (start (encodeVarint (zigzag (-150))))).1 = Except.ok (-150) := by
  decide

/-- C10 (failing evaluation): on the well-formed buffer
`[0x09, 0,0,0,0,0,0,0,0, 0x08, 0x01]` — a fixed64 field of tag 1 followed
by a varint field — the legal call sequence `next(); float64(); next()`
trips the `is_wire_type(0) || is_wire_type(2)` assertion inside `varint`,
because the second `next()` decodes the following key while `value` still
holds the previous key's wire type 1. -/
theorem next_key_assert_fails_after_fixed_field :
    (next (start [0x09, 0, 0, 0, 0, 0, 0, 0, 0, 0x08, 0x01])).1 = Except.ok true ∧
    wire_type (next (start [0x09, 0, 0, 0, 0, 0, 0, 0, 0, 0x08, 0x01])).2 = 1 ∧
    (float64 (next (start [0x09, 0, 0, 0, 0, 0, 0, 0, 0, 0x08, 0x01])).2).1 =
      Except.ok 0 ∧
    (next (float64 (next (start [0x09, 0, 0, 0, 0, 0, 0, 0, 0, 0x08, 0x01])).2).2).1 =
      Except.error Err.assertFail := by
  decide

/-- C2 counterexample: `boolean` on a cursor with `data = end` (here the
empty buffer, wire type 0) dereferences the byte at `end` inside its
one-byte assertion BEFORE any bounds check — the instrumented model
reports the out-of-bounds read — refuting the claim that no operation ever
reads a byte at or past `end`. -/
theorem boolean_reads_byte_at_end :
    (start []).data = (start []).end_ ∧ wire_type (start []) = 0 ∧
    boolean (start []) = (Except.error Err.oobRead, start []) := by
  decide

/-- C2 (amended): every operation preserves `data ≤ end` (and leaves `end`
unchanged) whether it returns normally or fails; and no operation's
instrumented reads ever touch a byte at or past `end`, with the single
exception of `boolean`, whose assertion reads the byte at the current
position before any bounds check — `boolean` is oob-read-free exactly when
`data < end` at entry. -/
theorem ops_preserve_data_le_end :
    PreservesBound next ∧ (∀ t, PreservesBound (nextTag t)) ∧
    (∀ w, PreservesBound (varint w)) ∧ (∀ w, PreservesBound (svarint w)) ∧
    (∀ w b, PreservesBound (fixed w b)) ∧ PreservesBound float32 ∧
    PreservesBound float64 ∧ PreservesBound string ∧ PreservesBound boolean ∧
    PreservesBound message ∧ PreservesBound skip ∧
    (∀ v, PreservesBound (skipValue v)) ∧ (∀ n, PreservesBound (skipBytes n)) ∧
    NoOobRead next ∧ (∀ t, NoOobRead (nextTag t)) ∧ (∀ w, NoOobRead (varint w)) ∧
    (∀ w, NoOobRead (svarint w)) ∧ (∀ w b, NoOobRead (fixed w b)) ∧
    NoOobRead float32 ∧ NoOobRead float64 ∧ NoOobRead string ∧ NoOobRead message ∧
    NoOobRead skip ∧ (∀ v, NoOobRead (skipValue v)) ∧ (∀ n, NoOobRead (skipBytes n)) ∧
    (∀ s : pbf, s.data < s.end_ → (boolean s).1 ≠ Except.error Err.oobRead) := by
  refine ⟨?_, ?_, ?_, ?_, ?_, ?_, ?_, ?_, ?_, ?_, ?_, ?_, ?_, ?_, ?_, ?_, ?_, ?_, ?_,
    ?_, ?_, ?_, ?_, ?_, ?_, ?_⟩
  · exact fun s hs => ⟨(next_frame s).2.1, (next_frame s).2.2.2.1 hs⟩
  · exact fun t s hs => nextTagAux_bound t (s.end_ - s.data + 1) s hs
  · exact fun w => (varint_frames w).preservesBound
  · exact fun w => (svarint_frames w).preservesBound
  · exact fun w b => (fixed_frames w b).preservesBound
  · exact float32_frames.preservesBound
  · exact float64_frames.preservesBound
  · exact string_frames.preservesBound
  · exact boolean_frames.preservesBound
  · exact message_frames.preservesBound
  · exact skip_frames.preservesBound
  · exact fun v => (skipValue_frames v).preservesBound
  · exact fun n s hs => ⟨(skipBytes_frame n s).2.1, (skipBytes_frame n s).2.2.2.2.2.1 hs⟩
  · exact fun s _ => (next_frame s).2.2.2.2.2.2
  · exact fun t s _ => nextTagAux_no_oob t (s.end_ - s.data + 1) s
  · exact fun w s _ => (varint_errs w s).1
  · exact fun w s _ => svarint_no_oob w s
  · exact fun w b s _ => fixed_no_oob w b s
  · exact fun s _ => float32_no_oob s
  · exact fun s _ => float64_no_oob s
  · exact fun s _ => string_no_oob s
  · exact fun s _ => message_no_oob s
  · exact fun s _ => skip_no_oob s
  · exact fun v s _ => skipValue_no_oob v s
  · exact fun n s _ => (skipBytes_frame n s).2.2.2.2.2.2
  · exact fun s hlt => boolean_no_oob s hlt

/-- Witness for the amended C2, instantiating the `next` component on the
spec's example buffer. -/
theorem ops_preserve_data_le_end_witness :
    (next (start [0x08, 0x96, 0x01])).2.end_ = 3 ∧
    (next (start [0x08, 0x96, 0x01])).2.data ≤ 3 :=
  ops_preserve_data_le_end.1 (start [0x08, 0x96, 0x01]) (by decide)

end pbf
